import Mathlib

/-!
Verification of the struct2tensor core against its specification.

Each section embeds one part of the source (`struct2tensor/path.py`,
`struct2tensor/expression.py`, `struct2tensor/expression_impl/*.py`) as
executable Lean definitions and proves the spec's claims about it.
-/

namespace Struct2Tensor

/-! ## Path steps and ordering (`struct2tensor/path.py`)

A step is `Union[AnonymousId, str]` in the source: either a string field
name or an integer anonymous id.  Strings are modelled as `List Char`
(Python compares strings lexicographically by code point, which is the
lexicographic order on `List Char`). -/

/-- A step of a path: `Step = Union[AnonymousId, str]` in `path.py`. -/
inductive Step where
  | name (s : List Char)
  | anon (id : Nat)
deriving DecidableEq, Repr

/-- Three-way comparison of two values of a linearly ordered type, mirroring
the Python pattern `if a > b: 1 elif a < b: -1 else 0` used in
`_compare_step`. -/
def cmpVal {α : Type} [LinearOrder α] (a b : α) : Ordering :=
  if a > b then .gt else if a < b then .lt else .eq

/-- `_compare_step` from `path.py`: both ints or both strings compare by
value; an `AnonymousId` is greater than any string. -/
def cmpStep : Step → Step → Ordering
  | .anon a, .anon b => cmpVal a b
  | .name a, .name b => cmpVal a b
  | .anon _, .name _ => .gt
  | .name _, .anon _ => .lt

/-- `Path.__cmp__` from `path.py`: compare the common positions step by
step; if all agree, the shorter path is less. -/
def cmpPath : List Step → List Step → Ordering
  | [], [] => .eq
  | [], _ :: _ => .lt
  | _ :: _, [] => .gt
  | a :: as_, b :: bs =>
    match cmpStep a b with
    | .eq => cmpPath as_ bs
    | o => o

/-- `a < b` for paths (`Path.__lt__`, i.e. `__cmp__ < 0`). -/
def pathLt (a b : List Step) : Prop := cmpPath a b = Ordering.lt

instance (a b : List Step) : Decidable (pathLt a b) := by
  unfold pathLt; infer_instance

theorem cmpVal_eq_iff {α : Type} [LinearOrder α] (a b : α) :
    cmpVal a b = Ordering.eq ↔ a = b := by
  unfold cmpVal
  rcases lt_trichotomy a b with h | h | h
  · simp [not_lt.mpr h.le, h, ne_of_lt h]
  · simp [h, lt_irrefl]
  · simp [h, (ne_of_lt h).symm]

theorem cmpVal_lt_iff {α : Type} [LinearOrder α] (a b : α) :
    cmpVal a b = Ordering.lt ↔ a < b := by
  unfold cmpVal
  rcases lt_trichotomy a b with h | h | h
  · simp [not_lt.mpr h.le, h]
  · simp [h, lt_irrefl]
  · simp [h, not_lt.mpr h.le]

theorem cmpVal_swap {α : Type} [LinearOrder α] (a b : α) :
    cmpVal b a = (cmpVal a b).swap := by
  unfold cmpVal
  rcases lt_trichotomy a b with h | h | h
  · simp [h, not_lt.mpr h.le, Ordering.swap]
  · simp [h, lt_irrefl, Ordering.swap]
  · simp [h, not_lt.mpr h.le, Ordering.swap]

theorem cmpStep_eq_iff (a b : Step) : cmpStep a b = Ordering.eq ↔ a = b := by
  cases a <;> cases b <;> simp [cmpStep, cmpVal_eq_iff]

theorem cmpStep_swap (a b : Step) : cmpStep b a = (cmpStep a b).swap := by
  cases a <;> cases b <;>
    first
      | exact cmpVal_swap _ _
      | rfl

theorem cmpStep_lt_trans {a b c : Step} (h1 : cmpStep a b = Ordering.lt)
    (h2 : cmpStep b c = Ordering.lt) : cmpStep a c = Ordering.lt := by
  cases a <;> cases b <;> cases c <;>
    simp only [cmpStep, cmpVal_lt_iff] at h1 h2 ⊢ <;>
    first
      | exact lt_trans h1 h2
      | trivial

theorem cmpPath_eq_iff (a b : List Step) : cmpPath a b = Ordering.eq ↔ a = b := by
  induction a generalizing b with
  | nil => cases b <;> simp [cmpPath]
  | cons x xs ih =>
    cases b with
    | nil => simp [cmpPath]
    | cons y ys =>
      simp only [cmpPath]
      cases hxy : cmpStep x y with
      | eq =>
        have : x = y := (cmpStep_eq_iff x y).mp hxy
        simp [this, ih]
      | lt =>
        have : x ≠ y := fun he => by simp [he, (cmpStep_eq_iff y y).mpr rfl] at hxy
        simp [this]
      | gt =>
        have : x ≠ y := fun he => by simp [he, (cmpStep_eq_iff y y).mpr rfl] at hxy
        simp [this]

theorem cmpPath_swap (a b : List Step) : cmpPath b a = (cmpPath a b).swap := by
  induction a generalizing b with
  | nil => cases b <;> simp [cmpPath, Ordering.swap]
  | cons x xs ih =>
    cases b with
    | nil => simp [cmpPath, Ordering.swap]
    | cons y ys =>
      simp only [cmpPath, cmpStep_swap x y]
      cases cmpStep x y <;> simp [Ordering.swap, ih]

theorem cmpPath_lt_trans {a b c : List Step} (h1 : cmpPath a b = Ordering.lt)
    (h2 : cmpPath b c = Ordering.lt) : cmpPath a c = Ordering.lt := by
  induction a generalizing b c with
  | nil =>
    cases b with
    | nil => exact h2
    | cons y ys => cases c with
      | nil => simp [cmpPath] at h2
      | cons z zs => simp [cmpPath]
  | cons x xs ih =>
    cases b with
    | nil => simp [cmpPath] at h1
    | cons y ys =>
      cases c with
      | nil => simp [cmpPath] at h2
      | cons z zs =>
        simp only [cmpPath] at h1 h2 ⊢
        cases hxy : cmpStep x y with
        | gt => simp [hxy] at h1
        | eq =>
          have hxy' : x = y := (cmpStep_eq_iff x y).mp hxy
          subst hxy'
          simp only [hxy] at h1
          cases hyz : cmpStep x z with
          | gt => simp [hyz] at h2
          | eq => simp only [hyz] at h2; simp [ih h1 h2]
          | lt => simp
        | lt =>
          cases hyz : cmpStep y z with
          | gt => simp [hyz] at h2
          | eq =>
            have : y = z := (cmpStep_eq_iff y z).mp hyz
            subst this
            simp [hxy]
          | lt => simp [cmpStep_lt_trans hxy hyz]

/-- A path is strictly less than any proper extension of itself. -/
theorem cmpPath_self_append {p q : List Step} (hq : q ≠ []) :
    cmpPath p (p ++ q) = Ordering.lt := by
  induction p with
  | nil => cases q with
    | nil => exact absurd rfl hq
    | cons z zs => simp [cmpPath]
  | cons x xs ih => simp [cmpPath, (cmpStep_eq_iff x x).mpr rfl, ih]

/-- With a common front, a name step on the left and an anonymous step on
the right makes the left path strictly smaller. -/
theorem cmpPath_name_lt_anon (pre s1 s2 : List Step) (n : List Char) (i : Nat) :
    cmpPath (pre ++ Step.name n :: s1) (pre ++ Step.anon i :: s2) = Ordering.lt := by
  induction pre with
  | nil => simp [cmpPath, cmpStep]
  | cons x xs ih => simp [cmpPath, (cmpStep_eq_iff x x).mpr rfl, ih]

/-- C4: path comparison is a strict total order: for all paths `a`, `b`,
`c`, exactly one of `a<b`, `a=b`, `b<a` holds; `a<b` and `b<c` implies
`a<c`; at any position an anonymous step compares greater than any name
step; a strict prefix of a path compares less than that path. -/
theorem path_order_strict_total (a b c : List Step) (pre s1 s2 : List Step)
    (i : Nat) (n : List Char) :
    ((pathLt a b ∧ a ≠ b ∧ ¬ pathLt b a) ∨ (¬ pathLt a b ∧ a = b ∧ ¬ pathLt b a)
      ∨ (¬ pathLt a b ∧ a ≠ b ∧ pathLt b a))
    ∧ (pathLt a b → pathLt b c → pathLt a c)
    ∧ cmpStep (Step.anon i) (Step.name n) = Ordering.gt
    ∧ pathLt (pre ++ Step.name n :: s1) (pre ++ Step.anon i :: s2)
    ∧ (c ≠ [] → pathLt a (a ++ c)) := by
  refine ⟨?_, fun h1 h2 => cmpPath_lt_trans h1 h2, rfl,
    cmpPath_name_lt_anon pre s1 s2 n i, fun hc => cmpPath_self_append hc⟩
  unfold pathLt
  cases hab : cmpPath a b with
  | lt =>
    refine Or.inl ⟨rfl, ?_, ?_⟩
    · intro he; rw [(cmpPath_eq_iff a b).symm, hab] at he; cases he
    · rw [cmpPath_swap a b, hab]; simp [Ordering.swap]
  | eq =>
    refine Or.inr (Or.inl ⟨?_, (cmpPath_eq_iff a b).mp hab, ?_⟩)
    · simp [hab]
    · rw [cmpPath_swap a b, hab]; simp [Ordering.swap]
  | gt =>
    refine Or.inr (Or.inr ⟨?_, ?_, ?_⟩)
    · simp [hab]
    · intro he; rw [(cmpPath_eq_iff a b).symm, hab] at he; cases he
    · rw [cmpPath_swap a b, hab]; simp [Ordering.swap]

/-- Witness for C4 at concrete paths. -/
theorem path_order_strict_total_witness :
    pathLt [] [Step.anon 0] ∧ pathLt [Step.anon 0] [Step.anon 0, Step.anon 1]
    ∧ pathLt [] [Step.anon 0, Step.anon 1]
    ∧ pathLt [Step.anon 5] ([Step.anon 5] ++ [Step.name ['a']]) := by
  have h := path_order_strict_total [] [Step.anon 0] [Step.anon 0, Step.anon 1]
    [] [] [] 0 ['a']
  have h2 := path_order_strict_total [Step.anon 5] [] [Step.name ['a']] [] [] [] 0 ['a']
  exact ⟨by decide, by decide, h.2.1 (by decide) (by decide), h2.2.2.2.2 (by decide)⟩

/-! ## Node tensors and promote's calculation
(`struct2tensor/expression_impl/promote.py`) -/

/-- Modelled from the spec: `struct2tensor/prensor.py` (the node-tensor
container, §3) is not among the given sources.  A node tensor is one of
`RootNodeTensor`, `ChildNodeTensor { parent_index, is_repeated }`, or
`LeafNodeTensor { parent_index, values, is_repeated }`; parent indices are
nonnegative machine integers and leaf values are primitives (modelled as
`Int`). -/
inductive NodeTensor where
  | root (size : Nat)
  | child (parentIndex : List Nat) (isRepeated : Bool)
  | leaf (parentIndex : List Nat) (values : List Int) (isRepeated : Bool)
deriving DecidableEq, Repr

/-- `tf.gather(params, indices)` on integer vectors (external collaborator):
looks each index up in `params`, failing if any index is out of range. -/
def gatherOpt (params : List Nat) : List Nat → Option (List Nat)
  | [] => some []
  | i :: is_ =>
    match params[i]?, gatherOpt params is_ with
    | some v, some rest => some (v :: rest)
    | _, _ => none

/-- `PromoteExpression.calculate`: the first source must be a leaf, the
second a child node; the result gathers the parent-to-grandparent index at
the origin's parent index, keeps the origin's values, and carries the
expression's own `is_repeated`. -/
def promoteCalculate (selfIsRepeated : Bool) (sources : List NodeTensor) :
    Option NodeTensor :=
  match sources with
  | [NodeTensor.leaf pi vs _, NodeTensor.child pg _] =>
    (gatherOpt pg pi).map (fun npi => NodeTensor.leaf npi vs selfIsRepeated)
  | _ => none

theorem gatherOpt_total {pg : List Nat} {pi : List Nat}
    (h : ∀ i ∈ pi, i < pg.length) :
    ∃ npi, gatherOpt pg pi = some npi ∧ npi.length = pi.length
      ∧ ∀ (k i : Nat), pi[k]? = some i → npi[k]? = pg[i]? := by
  induction pi with
  | nil => exact ⟨[], rfl, rfl, fun k i hk => by simp at hk⟩
  | cons a as_ ih =>
    have ha : a < pg.length := h a (List.mem_cons_self a as_)
    obtain ⟨v, hv⟩ : ∃ v, pg[a]? = some v :=
      ⟨pg[a], List.getElem?_eq_getElem ha⟩
    obtain ⟨rest, hrest, hlen, hpt⟩ := ih (fun i hi => h i (List.mem_cons_of_mem a hi))
    refine ⟨v :: rest, ?_, by simp [hlen], ?_⟩
    · simp [gatherOpt, hv, hrest]
    · intro k i hk
      cases k with
      | zero => simp at hk; subst hk; simpa using hv.symm
      | succ k' => simp at hk ⊢; exact hpt k' i hk

/-- C1: promoting a leaf through its parent keeps the values unchanged and
in order, maps each parent index through the parent-to-grandparent index
(`parent_index[i] = parent_to_grandparent_index[origin.parent_index[i]]`),
and is repeated iff the origin or its parent is repeated. -/
theorem promote_calculate_spec (r1 r2 : Bool) (pi : List Nat) (vs : List Int)
    (pg : List Nat) (h : ∀ i ∈ pi, i < pg.length) :
    ∃ npi,
      promoteCalculate (r1 || r2)
          [NodeTensor.leaf pi vs r1, NodeTensor.child pg r2]
        = some (NodeTensor.leaf npi vs (r1 || r2))
      ∧ npi.length = pi.length
      ∧ ∀ (k i : Nat), pi[k]? = some i → npi[k]? = pg[i]? := by
  obtain ⟨npi, hg, hlen, hpt⟩ := gatherOpt_total h
  exact ⟨npi, by simp [promoteCalculate, hg], hlen, hpt⟩

/-- Witness for C1: the spec's concrete scenario.  Grandparent level of 2
elements, parent level with parent index `[0,1,1]`, leaf with parent index
`[0,1,2]` and values `[10,20,30]`; promote yields parent index `[0,1,1]`
and values `[10,20,30]`. -/
theorem promote_calculate_spec_witness :
    promoteCalculate true
        [NodeTensor.leaf [0, 1, 2] [10, 20, 30] true,
          NodeTensor.child [0, 1, 1] true]
      = some (NodeTensor.leaf [0, 1, 1] [10, 20, 30] true) := by
  obtain ⟨npi, heq, hlen, hpt⟩ :=
    promote_calculate_spec true true [0, 1, 2] [10, 20, 30] [0, 1, 1] (by decide)
  have h0 := hpt 0 0 (by decide)
  have h1 := hpt 1 1 (by decide)
  have h2 := hpt 2 2 (by decide)
  have : npi = [0, 1, 1] := by
    have hl : npi.length = 3 := by simpa using hlen
    match npi, hl with
    | [a, b, c], _ =>
      simp at h0 h1 h2
      simp [h0, h1, h2]
  rw [this] at heq
  simpa using heq

/-! ## The expression family and the reference evaluator
(`struct2tensor/expression.py`, `expression_impl/depth_limit.py`,
`expression_impl/apply_schema.py`,
`struct2tensor/test/expression_test_util.py`) -/

/-- The concrete expression subtypes needed for the identity-propagation
claim: a mock source with a fixed calculated output
(`MockExpression` with `calculate_output`), the depth-limit wrapper
(`_DepthLimitExpression`), the schema-apply wrapper (`_SchemaExpression`),
and the promote leaf (`PromoteExpression`). -/
inductive SExpr where
  | mock (out : NodeTensor)
  | depthLimitE (origin : SExpr)
  | schemaE (origin : SExpr)
  | promoteE (selfIsRepeated : Bool) (origin parent : SExpr)
deriving DecidableEq, Repr

/-- `get_source_expressions` of each subtype. -/
def sourcesOf : SExpr → List SExpr
  | .mock _ => []
  | .depthLimitE o => [o]
  | .schemaE o => [o]
  | .promoteE _ o p => [o, p]

/-- `calculate` of each subtype, as a function of the source node tensors:
the mock returns its fixed output (after checking the source count), the
depth-limit and schema wrappers return `sources[0]` (raising unless there
is exactly one source), promote performs the gather. -/
def calcOf : SExpr → List NodeTensor → Option NodeTensor
  | .mock out, [] => some out
  | .mock _, _ => none
  | .depthLimitE _, [t] => some t
  | .depthLimitE _, _ => none
  | .schemaE _, [t] => some t
  | .schemaE _, _ => none
  | .promoteE r _ _, ts => promoteCalculate r ts

/-- `calculation_is_identity` of each subtype. -/
def calcIsIdentityOf : SExpr → Bool
  | .mock _ => false
  | .depthLimitE _ => true
  | .schemaE _ => true
  | .promoteE _ _ _ => false

/-- `expression_test_util.calculate_value_slowly`: recursively calculate
the sources, then apply the node's own `calculate`. -/
def evalSlowly : SExpr → Option NodeTensor
  | .mock out => calcOf (.mock out) []
  | .depthLimitE o => do
    let t ← evalSlowly o
    calcOf (.depthLimitE o) [t]
  | .schemaE o => do
    let t ← evalSlowly o
    calcOf (.schemaE o) [t]
  | .promoteE r o p => do
    let t1 ← evalSlowly o
    let t2 ← evalSlowly p
    calcOf (.promoteE r o p) [t1, t2]

/-- C2: the depth-limit and schema-apply wrappers declare an identity
calculation, and every expression with `calculation_is_identity() = true`
has exactly one source, returns its source tensor unchanged from
`calculate`, and evaluates to the same node tensor as its source. -/
theorem identity_propagation :
    (∀ o, calcIsIdentityOf (.depthLimitE o) = true
      ∧ calcIsIdentityOf (.schemaE o) = true)
    ∧ ∀ e, calcIsIdentityOf e = true →
        ∃ s, sourcesOf e = [s] ∧ (∀ t, calcOf e [t] = some t)
          ∧ evalSlowly e = evalSlowly s := by
  refine ⟨fun o => ⟨rfl, rfl⟩, fun e he => ?_⟩
  cases e with
  | mock out => cases he
  | promoteE r o p => cases he
  | depthLimitE o =>
    refine ⟨o, rfl, fun t => rfl, ?_⟩
    show (do
      let t ← evalSlowly o
      calcOf (.depthLimitE o) [t]) = evalSlowly o
    cases evalSlowly o <;> rfl
  | schemaE o =>
    refine ⟨o, rfl, fun t => rfl, ?_⟩
    show (do
      let t ← evalSlowly o
      calcOf (.schemaE o) [t]) = evalSlowly o
    cases evalSlowly o <;> rfl

/-- Witness for C2 at a concrete depth-limit wrapper of a mock source. -/
theorem identity_propagation_witness :
    ∃ s, sourcesOf (.depthLimitE (.mock (NodeTensor.leaf [0] [5] true))) = [s]
      ∧ (∀ t, calcOf (.depthLimitE (.mock (NodeTensor.leaf [0] [5] true))) [t] = some t)
      ∧ evalSlowly (.depthLimitE (.mock (NodeTensor.leaf [0] [5] true))) = evalSlowly s :=
  identity_propagation.2 (.depthLimitE (.mock (NodeTensor.leaf [0] [5] true))) (by decide)

/-! ## Child-lookup memoization (`Expression.get_child`, `expression.py`)

`get_child` consults the per-instance `_child_cache` dictionary; on a miss
it invokes the subtype hook `_get_child_impl` once and stores the
(possibly `None`) result.  The cache is a map from field name to the
resolved optional child; storing `none` memoizes absence. -/

/-- Lookup in the `_child_cache` dictionary: `some r` means an entry is
present (where `r` itself may be `none`, a memoized absent child). -/
def cacheLookup {α : Type} : List (List Char × Option α) → List Char → Option (Option α)
  | [], _ => none
  | (k, v) :: rest, nm => if k = nm then some v else cacheLookup rest nm

/-- `Expression.get_child`: return the cached entry if present, otherwise
invoke `_get_child_impl`, cache its result and return it.  The result is
the returned child, the updated cache, and whether the hook was invoked. -/
def getChild {α : Type} (impl : List Char → Option α)
    (cache : List (List Char × Option α)) (nm : List Char) :
    Option α × List (List Char × Option α) × Bool :=
  match cacheLookup cache nm with
  | some r => (r, cache, false)
  | none => (impl nm, (nm, impl nm) :: cache, true)

/-- C3: a second `get_child` with the same name returns the identical
cached result of the first call (also when the first call resolved to
absent), leaves the cache unchanged, and does not invoke the resolution
hook again — so the hook runs at most once per name per instance. -/
theorem get_child_memoized {α : Type} (impl : List Char → Option α)
    (cache : List (List Char × Option α)) (nm : List Char) :
    (getChild impl (getChild impl cache nm).2.1 nm).1 = (getChild impl cache nm).1
    ∧ (getChild impl (getChild impl cache nm).2.1 nm).2.1 = (getChild impl cache nm).2.1
    ∧ (getChild impl (getChild impl cache nm).2.1 nm).2.2 = false
    ∧ cacheLookup (getChild impl cache nm).2.1 nm = some (getChild impl cache nm).1 := by
  cases h : cacheLookup cache nm with
  | some r => simp [getChild, h]
  | none => simp [getChild, h, cacheLookup]

/-! ## Size and has (`struct2tensor/expression_impl/size_test.py`) -/

/-- Modelled from the spec: `struct2tensor/expression_impl/size.py` is not
among the given sources (only `size_test.py` is).  Per spec §4.5, `size`
derives "per-parent count of child elements": one count per parent
element, indexed `[0..n-1]` (as asserted by `size_test.py`). -/
def sizeValues (numParents : Nat) (parentIndex : List Nat) : List Nat :=
  (List.range numParents).map (fun j => (parentIndex.filter (fun i => i = j)).length)

/-- Modelled from the spec: `has` derives the "per-parent boolean
presence" of the field, one flag per parent element. -/
def hasValues (numParents : Nat) (parentIndex : List Nat) : List Bool :=
  (List.range numParents).map (fun j => parentIndex.contains j)

/-- C5 counterexample: for a leaf with parent index `[0,1,1,2]` over 3
parent docs, size is not `[1,2,0]` and has is not `[true,true,false]` as
the claim states (doc 2 has one element, not zero). -/
theorem size_has_claim_false :
    ¬ (sizeValues 3 [0, 1, 1, 2] = [1, 2, 0]
      ∧ hasValues 3 [0, 1, 1, 2] = [true, true, false]) := by decide

/-- C5 amended: `doc.bar` with parent index `[0,1,1,2]` over 3 docs has
size `[1,2,1]` and has `[true,true,true]`; the outputs `[1,1,0]` and
`[true,true,false]` quoted by the claim are those of the optional field
`doc.keep_me` (parent index `[0,1]`), per `size_test.py`. -/
theorem size_has_scenario :
    sizeValues 3 [0, 1, 1, 2] = [1, 2, 1]
    ∧ hasValues 3 [0, 1, 1, 2] = [true, true, true]
    ∧ sizeValues 3 [0, 1] = [1, 1, 0]
    ∧ hasValues 3 [0, 1] = [true, true, false] := by decide

/-! ## `calculation_equal` of the concrete subtypes

`PromoteExpression.calculation_equal` is an `isinstance` check;
`_SchemaExpression` and `_DepthLimitExpression` test
`expr.calculation_is_identity()`; `_MapPrensorExpression` tests `self is
expr` (object identity, modelled as a numeric object id);
`MockExpression` tests `self.calculation_is_identity() and
expr.calculation_is_identity()`. -/

/-- The subtype tag of a concrete expression object; a mock carries its
configured `calculate_is_identity` flag. -/
inductive EKind where
  | promoteK
  | schemaK
  | depthLimitK
  | mapPrensorK
  | mockK (calcIsIdentity : Bool)
deriving DecidableEq, Repr

/-- A concrete expression object: its identity (`self is other` compares
`objId`; distinct live objects have distinct ids) and its subtype. -/
structure EObj where
  objId : Nat
  kind : EKind
deriving DecidableEq, Repr

/-- `calculation_is_identity` per subtype. -/
def objCalcIsIdentity (e : EObj) : Bool :=
  match e.kind with
  | .schemaK => true
  | .depthLimitK => true
  | .mockK b => b
  | .promoteK => false
  | .mapPrensorK => false

/-- `calculation_equal` per subtype, as implemented in `promote.py`,
`apply_schema.py`, `depth_limit.py`, `map_prensor.py` and
`expression_test_util.py`. -/
def calculationEqual (self other : EObj) : Bool :=
  match self.kind with
  | .promoteK => (match other.kind with | .promoteK => true | _ => false)
  | .schemaK => objCalcIsIdentity other
  | .depthLimitK => objCalcIsIdentity other
  | .mapPrensorK => self.objId == other.objId
  | .mockK _ => objCalcIsIdentity self && objCalcIsIdentity other

/-- C6 counterexample: a `MockExpression` with `calculate_is_identity =
False` is not `calculation_equal` to itself, so the reflexivity claim
fails for that subtype. -/
theorem calculation_equal_not_reflexive :
    calculationEqual ⟨0, EKind.mockK false⟩ ⟨0, EKind.mockK false⟩ = false := by
  decide

/-- C6 amended: `calculation_equal` is reflexive for every concrete
expression instance except a `MockExpression` whose
`calculation_is_identity()` is false. -/
theorem calculation_equal_reflexive (e : EObj) (h : e.kind ≠ EKind.mockK false) :
    calculationEqual e e = true := by
  obtain ⟨i, k⟩ := e
  cases k with
  | promoteK => rfl
  | schemaK => rfl
  | depthLimitK => rfl
  | mapPrensorK => simp [calculationEqual]
  | mockK b =>
    cases b with
    | false => exact absurd rfl h
    | true => rfl

/-- Witness for C6 (amended) at a concrete promote expression. -/
theorem calculation_equal_reflexive_witness :
    (⟨3, EKind.promoteK⟩ : EObj).kind ≠ EKind.mockK false
    ∧ calculationEqual ⟨3, EKind.promoteK⟩ ⟨3, EKind.promoteK⟩ = true :=
  ⟨by decide, calculation_equal_reflexive ⟨3, EKind.promoteK⟩ (by decide)⟩

/-! ## Promote's schema-feature fusion (`promote.py`)

`_get_promote_schema_feature` fuses the origin's and parent's schema
features.  Fraction-valued presence bounds are modelled as rationals and
opaque proto submessages (domain info, distribution constraints) as
numeric payloads. -/

/-- `tensorflow_metadata` `LifecycleStage` enum values. -/
inductive LifecycleStage where
  | unknownStage
  | planned
  | alpha
  | beta
  | production
  | deprecated
  | debugOnly
deriving DecidableEq, Repr

/-- `_lifecycle_stage_number`: index of the stage in the quality list
`[DEPRECATED, PLANNED, ALPHA, DEBUG_ONLY, None, UNKNOWN_STAGE, BETA,
PRODUCTION]`. -/
def lifecycleStageNumber : Option LifecycleStage → Nat
  | some .deprecated => 0
  | some .planned => 1
  | some .alpha => 2
  | some .debugOnly => 3
  | none => 4
  | some .unknownStage => 5
  | some .beta => 6
  | some .production => 7

/-- `_min_lifecycle_stage`: the stage with the smaller quality number. -/
def minLifecycleStage (a b : Option LifecycleStage) : Option LifecycleStage :=
  if lifecycleStageNumber b < lifecycleStageNumber a then b else a

/-- `ValueCount` submessage: optional `min` / `max` value counts. -/
structure ValueCount where
  min : Option Int
  max : Option Int
deriving DecidableEq, Repr

/-- `FeaturePresence` submessage: optional `min_fraction` / `min_count`. -/
structure Presence where
  minFraction : Option ℚ
  minCount : Option Int
deriving DecidableEq, Repr

/-- The parts of a `tensorflow_metadata` `Feature` that
`_get_promote_schema_feature` reads and writes; the domain-info oneof and
the distribution constraints are carried as opaque payloads. -/
structure Feature where
  lifecycleStage : LifecycleStage
  type : Nat
  distributionConstraints : Option Nat
  domainInfo : Option Nat
  valueCount : ValueCount
  presence : Presence
deriving DecidableEq, Repr

/-- `_feature_is_dense`: presence `min_fraction == 1.0` (0 when unset) and
both value-count bounds set and equal. -/
def featureIsDense (f : Feature) : Bool :=
  decide (f.presence.minFraction.getD 0 = 1)
  && f.valueCount.min.isSome && f.valueCount.max.isSome
  && decide (f.valueCount.min = f.valueCount.max)

/-- The fused lifecycle stage assigned by `_get_promote_schema_feature`:
the minimum of the two (present) stages.  The `none` fallback is
unreachable because the minimum of two present stages is present. -/
def fusedStage (o p : Feature) : LifecycleStage :=
  match minLifecycleStage (some o.lifecycleStage) (some p.lifecycleStage) with
  | some s => s
  | none => o.lifecycleStage

/-- The rescaled presence `min_fraction` under a dense parent:
`1` stays `1`; otherwise `original.presence.min_fraction / parent_size`,
which raises `ZeroDivisionError` when the dense parent's fan-out is 0. -/
def scaledMinFraction (parentSize : Int) : Option ℚ → Except Unit (Option ℚ)
  | none => .ok none
  | some mf =>
    if mf = 1 then .ok (some 1)
    else if parentSize = 0 then .error ()
    else .ok (some (mf / (parentSize : ℚ)))

/-- The rescaled presence `min_count` under a dense parent:
`original.presence.min_count // parent_size` (Python floor division),
which raises `ZeroDivisionError` when the dense parent's fan-out is 0. -/
def scaledMinCount (parentSize : Int) : Option Int → Except Unit (Option Int)
  | none => .ok none
  | some mc =>
    if parentSize = 0 then .error ()
    else .ok (some (Int.fdiv mc parentSize))

/-- `_get_promote_schema_feature`: `None` if either input feature is
absent; otherwise the fused feature: minimum lifecycle stage, origin's
type, distribution constraints and domain info copied from the origin,
and value-count / presence bounds rescaled by the parent's fan-out only
when the parent is provably dense.  The rescaling divides by the
parent's fan-out, so a provably dense parent with `value_count.min =
max = 0` raises `ZeroDivisionError` (`.error`) when the origin carries a
`min_fraction ≠ 1` or a `min_count`. -/
def getPromoteSchemaFeature (original parent : Option Feature) :
    Except Unit (Option Feature) :=
  match original, parent with
  | none, _ => .ok none
  | some _, none => .ok none
  | some o, some p =>
    let base : Feature :=
      { lifecycleStage := fusedStage o p
        type := o.type
        distributionConstraints := o.distributionConstraints
        domainInfo := o.domainInfo
        valueCount := ⟨none, none⟩
        presence := ⟨none, none⟩ }
    if featureIsDense p then
      let parentSize : Int := p.valueCount.min.getD 0
      match scaledMinFraction parentSize o.presence.minFraction with
      | .error e => .error e
      | .ok mfSc =>
        match scaledMinCount parentSize o.presence.minCount with
        | .error e => .error e
        | .ok mcSc =>
          .ok (some { base with
            valueCount :=
              ⟨o.valueCount.min.map (fun m => parentSize * m),
                o.valueCount.max.map (fun m => parentSize * m)⟩
            presence := ⟨mfSc, mcSc⟩ })
    else .ok (some base)

theorem minLifecycleStage_is_min (a b : Option LifecycleStage) :
    lifecycleStageNumber (minLifecycleStage a b)
      = Nat.min (lifecycleStageNumber a) (lifecycleStageNumber b)
    ∧ (minLifecycleStage a b = a ∨ minLifecycleStage a b = b) := by
  unfold minLifecycleStage
  split_ifs with h
  · exact ⟨(Nat.min_eq_right (Nat.le_of_lt h)).symm, Or.inr rfl⟩
  · exact ⟨(Nat.min_eq_left (Nat.le_of_not_lt h)).symm, Or.inl rfl⟩

theorem fusedStage_spec (o p : Feature) :
    lifecycleStageNumber (some (fusedStage o p))
      = Nat.min (lifecycleStageNumber (some o.lifecycleStage))
          (lifecycleStageNumber (some p.lifecycleStage))
    ∧ (fusedStage o p = o.lifecycleStage ∨ fusedStage o p = p.lifecycleStage) := by
  obtain ⟨hmin, hor⟩ :=
    minLifecycleStage_is_min (some o.lifecycleStage) (some p.lifecycleStage)
  unfold fusedStage
  rcases hor with h | h
  · rw [h] at hmin ⊢; exact ⟨hmin, Or.inl rfl⟩
  · rw [h] at hmin ⊢; exact ⟨hmin, Or.inr rfl⟩

theorem featureIsDense_exists {p : Feature} (hd : featureIsDense p = true) :
    ∃ ps : Int, p.valueCount.min = some ps ∧ p.valueCount.max = some ps := by
  unfold featureIsDense at hd
  simp only [Bool.and_eq_true, decide_eq_true_eq, Option.isSome_iff_exists] at hd
  obtain ⟨⟨⟨-, ps, hps⟩, -⟩, heq⟩ := hd
  exact ⟨ps, hps, by rw [← heq, hps]⟩

theorem scaledMinFraction_of_ne_zero {ps : Int} (hps : ps ≠ 0) (x : Option ℚ) :
    scaledMinFraction ps x
      = .ok (x.map (fun mf => if mf = 1 then 1 else mf / (ps : ℚ))) := by
  cases x with
  | none => rfl
  | some mf =>
    by_cases hmf : mf = 1
    · simp [scaledMinFraction, hmf]
    · simp [scaledMinFraction, hmf, hps]

theorem scaledMinCount_of_ne_zero {ps : Int} (hps : ps ≠ 0) (x : Option Int) :
    scaledMinCount ps x = .ok (x.map (fun mc => Int.fdiv mc ps)) := by
  cases x with
  | none => rfl
  | some mc => simp [scaledMinCount, hps]

/-- C7: the fused feature's lifecycle stage is the minimum of the two
inputs' stages under the fixed total order `DEPRECATED < PLANNED < ALPHA <
DEBUG_ONLY < unset < UNKNOWN < BETA < PRODUCTION` (always computed, no
missing case); value-count and presence bounds are rescaled by the
parent's fan-out exactly when the parent is provably dense, and are left
unset otherwise; with a dense parent the rescaling succeeds unless the
fan-out is 0 and the origin carries a `min_fraction ≠ 1` or a
`min_count`, in which case the source raises `ZeroDivisionError`. -/
theorem promote_schema_fusion (o p : Feature) :
    (lifecycleStageNumber (some .deprecated) < lifecycleStageNumber (some .planned)
      ∧ lifecycleStageNumber (some .planned) < lifecycleStageNumber (some .alpha)
      ∧ lifecycleStageNumber (some .alpha) < lifecycleStageNumber (some .debugOnly)
      ∧ lifecycleStageNumber (some .debugOnly) < lifecycleStageNumber none
      ∧ lifecycleStageNumber none < lifecycleStageNumber (some .unknownStage)
      ∧ lifecycleStageNumber (some .unknownStage) < lifecycleStageNumber (some .beta)
      ∧ lifecycleStageNumber (some .beta) < lifecycleStageNumber (some .production))
    ∧ (∀ r, getPromoteSchemaFeature (some o) (some p) = .ok (some r) →
        lifecycleStageNumber (some r.lifecycleStage)
          = Nat.min (lifecycleStageNumber (some o.lifecycleStage))
              (lifecycleStageNumber (some p.lifecycleStage))
        ∧ (r.lifecycleStage = o.lifecycleStage ∨ r.lifecycleStage = p.lifecycleStage))
    ∧ (featureIsDense p = false →
        ∃ r, getPromoteSchemaFeature (some o) (some p) = .ok (some r)
          ∧ r.valueCount = ⟨none, none⟩ ∧ r.presence = ⟨none, none⟩)
    ∧ (featureIsDense p = true →
        ∃ ps : Int, p.valueCount.min = some ps ∧ p.valueCount.max = some ps
          ∧ ((getPromoteSchemaFeature (some o) (some p) = .error ()
                ∧ ps = 0
                ∧ ((∃ mf, o.presence.minFraction = some mf ∧ mf ≠ 1)
                    ∨ o.presence.minCount.isSome = true))
              ∨ ∃ r, getPromoteSchemaFeature (some o) (some p) = .ok (some r)
                  ∧ r.valueCount.min = o.valueCount.min.map (fun m => ps * m)
                  ∧ r.valueCount.max = o.valueCount.max.map (fun m => ps * m)
                  ∧ scaledMinFraction ps o.presence.minFraction
                      = .ok r.presence.minFraction
                  ∧ scaledMinCount ps o.presence.minCount
                      = .ok r.presence.minCount)) := by
  refine ⟨by decide, ?_, ?_, ?_⟩
  · -- every produced feature carries the minimum lifecycle stage
    intro r hr
    have hstage : r.lifecycleStage = fusedStage o p := by
      unfold getPromoteSchemaFeature at hr
      cases hd : featureIsDense p with
      | false =>
        simp [hd] at hr
        rw [← hr]
      | true =>
        simp only [hd, if_true, if_pos rfl] at hr
        cases hmf : scaledMinFraction (p.valueCount.min.getD 0)
            o.presence.minFraction with
        | error e => simp [hmf] at hr
        | ok mfSc =>
          cases hmc : scaledMinCount (p.valueCount.min.getD 0)
              o.presence.minCount with
          | error e => simp [hmf, hmc] at hr
          | ok mcSc =>
            simp [hmf, hmc] at hr
            rw [← hr]
    rw [hstage]
    exact fusedStage_spec o p
  · -- a parent that is not provably dense leaves the bounds unset
    intro hd
    refine ⟨⟨fusedStage o p, o.type, o.distributionConstraints, o.domainInfo,
        ⟨none, none⟩, ⟨none, none⟩⟩, ?_, rfl, rfl⟩
    simp [getPromoteSchemaFeature, hd, fusedStage]
  · -- a provably dense parent rescales by its fan-out, or raises on 0
    intro hd
    obtain ⟨ps, hps, hpmax⟩ := featureIsDense_exists hd
    refine ⟨ps, hps, hpmax, ?_⟩
    by_cases hps0 : ps = 0
    · subst hps0
      rcases hmf : o.presence.minFraction with - | mf
      · rcases hmc : o.presence.minCount with - | mc
        · right
          refine ⟨⟨fusedStage o p, o.type, o.distributionConstraints, o.domainInfo,
              ⟨o.valueCount.min.map (fun m => (0 : Int) * m),
                o.valueCount.max.map (fun m => (0 : Int) * m)⟩,
              ⟨none, none⟩⟩, ?_, rfl, rfl, ?_, ?_⟩
          · simp [getPromoteSchemaFeature, hd, fusedStage, hps, hmf, hmc,
              scaledMinFraction, scaledMinCount]
          · rfl
          · rfl
        · left
          refine ⟨?_, rfl, Or.inr rfl⟩
          simp [getPromoteSchemaFeature, hd, fusedStage, hps, hmf, hmc,
            scaledMinFraction, scaledMinCount]
      · by_cases hmf1 : mf = 1
        · subst hmf1
          rcases hmc : o.presence.minCount with - | mc
          · right
            refine ⟨⟨fusedStage o p, o.type, o.distributionConstraints, o.domainInfo,
                ⟨o.valueCount.min.map (fun m => (0 : Int) * m),
                  o.valueCount.max.map (fun m => (0 : Int) * m)⟩,
                ⟨some 1, none⟩⟩, ?_, rfl, rfl, ?_, ?_⟩
            · simp [getPromoteSchemaFeature, hd, fusedStage, hps, hmf, hmc,
                scaledMinFraction, scaledMinCount]
            · simp [scaledMinFraction]
            · rfl
          · left
            refine ⟨?_, rfl, Or.inr rfl⟩
            simp [getPromoteSchemaFeature, hd, fusedStage, hps, hmf, hmc,
              scaledMinFraction, scaledMinCount]
        · left
          refine ⟨?_, rfl, Or.inl ⟨mf, rfl, hmf1⟩⟩
          simp [getPromoteSchemaFeature, hd, fusedStage, hps, hmf, hmf1,
            scaledMinFraction]
    · right
      have hmfEq := scaledMinFraction_of_ne_zero hps0 o.presence.minFraction
      have hmcEq := scaledMinCount_of_ne_zero hps0 o.presence.minCount
      refine ⟨⟨fusedStage o p, o.type, o.distributionConstraints, o.domainInfo,
          ⟨o.valueCount.min.map (fun m => ps * m),
            o.valueCount.max.map (fun m => ps * m)⟩,
          ⟨o.presence.minFraction.map (fun mf => if mf = 1 then 1 else mf / (ps : ℚ)),
            o.presence.minCount.map (fun mc => Int.fdiv mc ps)⟩⟩,
        ?_, rfl, rfl, by rw [hmfEq], by rw [hmcEq]⟩
      simp [getPromoteSchemaFeature, hd, fusedStage, hps, hmfEq, hmcEq]

/-- Witness for C7: a dense parent with fan-out 2 (`min_fraction = 1`,
`value_count.min = value_count.max = 2`) rescales the origin's value
count without raising. -/
theorem promote_schema_fusion_witness :
    ∃ r, getPromoteSchemaFeature
        (some { lifecycleStage := .beta, type := 0, distributionConstraints := none,
                domainInfo := none, valueCount := ⟨some 2, some 3⟩,
                presence := ⟨some 1, some 5⟩ })
        (some { lifecycleStage := .alpha, type := 0, distributionConstraints := none,
                domainInfo := none, valueCount := ⟨some 2, some 2⟩,
                presence := ⟨some 1, some 1⟩ })
      = .ok (some r)
      ∧ r.valueCount.min = some 4 ∧ r.valueCount.max = some 6 := by
  obtain ⟨-, -, -, hdense⟩ :=
    promote_schema_fusion
      { lifecycleStage := .beta, type := 0, distributionConstraints := none,
        domainInfo := none, valueCount := ⟨some 2, some 3⟩,
        presence := ⟨some 1, some 5⟩ }
      { lifecycleStage := .alpha, type := 0, distributionConstraints := none,
        domainInfo := none, valueCount := ⟨some 2, some 2⟩,
        presence := ⟨some 1, some 1⟩ }
  obtain ⟨ps, hps, -, hcases⟩ := hdense (by decide)
  have hps2 : ps = 2 := by simpa using hps.symm
  subst hps2
  rcases hcases with ⟨-, hzero, -⟩ | ⟨r, hr, hvmin, hvmax, -, -⟩
  · cases hzero
  · exact ⟨r, hr, by simpa using hvmin, by simpa using hvmax⟩

/-! ## Schema normalization in `apply_schema` (`apply_schema.py`)

`apply_schema` builds `schema_copy` via `CopyFrom` but then runs
`_normalize_feature(x, schema)` over the ORIGINAL schema's features and
hands `schema.feature` to the `_SchemaExpression`; the copy is never
used, so the caller's schema object is normalized in place.  The model
keeps the parts `_normalize_feature` touches: the domain-info oneof
(named domain reference, inlined string/int/float domain, struct domain
with nested features) and the schema's global domain lists. -/

/-- `StringDomain`: a named enumeration of string values. -/
structure StringDomain where
  nm : List Char
  values : List (List Char)
deriving DecidableEq, Repr

/-- `IntDomain`: a named integer range. -/
structure IntDomain where
  nm : List Char
  min : Int
  max : Int
  isCategorical : Bool
deriving DecidableEq, Repr

/-- `FloatDomain`: a named fraction range. -/
structure FloatDomain where
  nm : List Char
  min : ℚ
  max : ℚ
deriving DecidableEq, Repr

mutual
/-- A schema `Feature`, reduced to the fields `_normalize_feature` reads
and writes: its name and its `domain_info` oneof. -/
inductive SFeature where
  | mk (nm : List Char) (domainInfo : Option DomainInfo)

/-- The `domain_info` oneof of a `Feature`: a reference to a named global
domain (`domain`), an inlined string/int/float domain, or a
`struct_domain` with nested features. -/
inductive DomainInfo where
  | domainRef (dn : List Char)
  | stringDom (sd : StringDomain)
  | intDom (idm : IntDomain)
  | floatDom (fd : FloatDomain)
  | structDom (features : List SFeature)
end

/-- The parts of `schema_pb2.Schema` that `apply_schema` reads: the
top-level features and the global named domains. -/
structure PSchema where
  feature : List SFeature
  stringDomain : List StringDomain
  intDomain : List IntDomain
  floatDomain : List FloatDomain

/-- First global string domain with the given name. -/
def findStringDomain : List StringDomain → List Char → Option StringDomain
  | [], _ => none
  | d :: rest, dn => if d.nm = dn then some d else findStringDomain rest dn

/-- First global int domain with the given name. -/
def findIntDomain : List IntDomain → List Char → Option IntDomain
  | [], _ => none
  | d :: rest, dn => if d.nm = dn then some d else findIntDomain rest dn

/-- First global float domain with the given name. -/
def findFloatDomain : List FloatDomain → List Char → Option FloatDomain
  | [], _ => none
  | d :: rest, dn => if d.nm = dn then some d else findFloatDomain rest dn

mutual
/-- `_normalize_feature`: recurse into a struct domain's children; inline
a referenced global domain (string, then int, then float, in that order),
failing if the name is not declared.  The returned feature is the
feature's state after the in-place mutation. -/
def normalizeFeature (schema : PSchema) : SFeature → Except Unit SFeature
  | .mk nm di =>
    match di with
    | some (.structDom fs) => do
      let fs2 ← normalizeFeatureList schema fs
      pure (.mk nm (some (.structDom fs2)))
    | some (.domainRef dn) =>
      match findStringDomain schema.stringDomain dn with
      | some sd => pure (.mk nm (some (.stringDom sd)))
      | none =>
        match findIntDomain schema.intDomain dn with
        | some idm => pure (.mk nm (some (.intDom idm)))
        | none =>
          match findFloatDomain schema.floatDomain dn with
          | some fd => pure (.mk nm (some (.floatDom fd)))
          | none => .error ()
    | _ => pure (.mk nm di)

/-- `_normalize_feature` over a feature list, in order. -/
def normalizeFeatureList (schema : PSchema) :
    List SFeature → Except Unit (List SFeature)
  | [] => pure []
  | f :: fs => do
    let f2 ← normalizeFeature schema f
    let fs2 ← normalizeFeatureList schema fs
    pure (f2 :: fs2)
end

/-- `apply_schema`'s effect on the CALLER's schema object: `schema_copy`
is created and never used, and `_normalize_feature(x, schema)` is run
over the original `schema.feature`, so on success the caller's schema
holds the normalized features. -/
def applySchemaEffect (schema : PSchema) : Except Unit PSchema := do
  let newFeatures ← normalizeFeatureList schema schema.feature
  pure { schema with feature := newFeatures }

/-- A one-feature schema whose feature references the global string
domain `d`. -/
def demoSchema : PSchema :=
  { feature := [.mk ['f'] (some (.domainRef ['d']))]
    stringDomain := [⟨['d'], [['a']]⟩]
    intDomain := []
    floatDomain := [] }

/-- C10 (failing input): `apply_schema` on a schema with a feature
referencing global string domain `d` rewrites the caller's feature to
hold the inlined string domain — the caller's schema object is changed
by the call, contradicting the claim that normalization happens on an
internal copy. -/
theorem apply_schema_mutates_caller :
    applySchemaEffect demoSchema
      = .ok { demoSchema with
          feature := [.mk ['f'] (some (.stringDom ⟨['d'], [['a']]⟩))] }
    ∧ [SFeature.mk ['f'] (some (.stringDom ⟨['d'], [['a']]⟩))]
        ≠ demoSchema.feature := by
  constructor
  · rfl
  · intro h
    rw [show demoSchema.feature = [.mk ['f'] (some (.domainRef ['d']))] from rfl] at h
    have h2 := List.head_eq_of_cons_eq h
    cases h2

/-! ## Path-literal parsing (`create_path`, `is_valid_step`, `path.py`)

`create_path` first rejects a text ending in `"."`, then repeatedly
matches `(EXTENSION|SIMPLE|MAP)(\.|$)` at the current position, collecting
the matched steps; it raises `Malformed path` when no step matches.
The regexes:
  - `_SIMPLE_STEP_REGEX`: `[A-Za-z0-9_\-]+`
  - `_EXTENSION_REGEX`: `\((?:[A-Za-z0-9_/\-]+\.)*[A-Za-z0-9_/\-]+\)`
  - `_MAP_INDEXING_STEP_REGEX`: `[A-Za-z0-9_\-]+\[[^]]*\]`
Since the three alternatives are distinguished by their first characters
and each character class excludes its delimiter, the backtracking regex
engine's behaviour on these patterns is the deterministic longest-run
matcher embedded below. -/

/-- A character of `[A-Za-z0-9_\-]` (simple-step characters). -/
def isSimpleChar (c : Char) : Bool :=
  (decide ('A' ≤ c) && decide (c ≤ 'Z')) || (decide ('a' ≤ c) && decide (c ≤ 'z'))
  || (decide ('0' ≤ c) && decide (c ≤ '9')) || c == '_' || c == '-'

/-- A character of `[A-Za-z0-9_/\-]` (extension-segment characters). -/
def isExtChar (c : Char) : Bool := isSimpleChar c || c == '/'

/-- Splits off the longest run of characters satisfying `p` (the greedy
match of a character class). -/
def takeWhileB (p : Char → Bool) : List Char → List Char × List Char
  | [] => ([], [])
  | c :: rest =>
    if p c then
      let t := takeWhileB p rest
      (c :: t.1, t.2)
    else ([], c :: rest)

theorem takeWhileB_join (p : Char → Bool) (cs : List Char) :
    (takeWhileB p cs).1 ++ (takeWhileB p cs).2 = cs := by
  induction cs with
  | nil => rfl
  | cons c rest ih =>
    by_cases hc : p c
    · simp [takeWhileB, hc, ih]
    · simp [takeWhileB, hc]

theorem takeWhileB_fst_all (p : Char → Bool) (cs : List Char) :
    ∀ c ∈ (takeWhileB p cs).1, p c = true := by
  induction cs with
  | nil => simp [takeWhileB]
  | cons c rest ih =>
    by_cases hc : p c
    · simp only [takeWhileB, hc, if_true]
      intro x hx
      rcases List.mem_cons.mp hx with h | h
      · rw [h]; exact hc
      · exact ih x h
    · simp [takeWhileB, hc]

theorem takeWhileB_snd_head (p : Char → Bool) (cs : List Char) {c : Char}
    {rest : List Char} (h : (takeWhileB p cs).2 = c :: rest) : p c = false := by
  induction cs with
  | nil => simp [takeWhileB] at h
  | cons a tl ih =>
    cases ha : p a with
    | true =>
      simp only [takeWhileB, ha, if_true] at h
      exact ih h
    | false =>
      simp [takeWhileB, ha] at h
      rw [← h.1]
      exact ha

theorem takeWhileB_split (p : Char → Bool) (st r : List Char)
    (hst : ∀ c ∈ st, p c = true)
    (hr : ∀ c rest, r = c :: rest → p c = false) :
    takeWhileB p (st ++ r) = (st, r) := by
  induction st with
  | nil =>
    cases r with
    | nil => rfl
    | cons c rest => simp [takeWhileB, hr c rest rfl]
  | cons a tl ih =>
    have ha : p a = true := hst a (List.mem_cons_self a tl)
    have hrec := ih (fun c hc => hst c (List.mem_cons_of_mem a hc))
    have hstep : takeWhileB p ((a :: tl) ++ r)
        = (a :: (takeWhileB p (tl ++ r)).1, (takeWhileB p (tl ++ r)).2) := by
      show takeWhileB p (a :: (tl ++ r)) = _
      simp [takeWhileB, ha]
    rw [hstep, hrec]

theorem takeWhileB_snd_length (p : Char → Bool) (cs : List Char) :
    (takeWhileB p cs).2.length ≤ cs.length := by
  conv_rhs => rw [← takeWhileB_join p cs]
  simp

/-- The inner part of the extension regex after the opening parenthesis:
one or more `[A-Za-z0-9_/\-]+` segments separated by `.`, terminated by
`)`; returns the consumed part (including the closing parenthesis) and
the remaining input.  `fuel` bounds the recursion depth; every call site
supplies at least the input's length, which always suffices because each
step consumes at least one character. -/
def matchExtInnerF : Nat → List Char → Option (List Char × List Char)
  | 0, _ => none
  | fuel + 1, cs =>
    let sp := takeWhileB isExtChar cs
    if sp.1 = [] then none
    else
      match sp.2 with
      | [] => none
      | c :: rest =>
        if c = ')' then some (sp.1 ++ [')'], rest)
        else if c = '.' then
          match matchExtInnerF fuel rest with
          | some (consumed, rem) => some (sp.1 ++ '.' :: consumed, rem)
          | none => none
        else none

/-- The extension matcher at its canonical fuel. -/
def matchExtInner (cs : List Char) : Option (List Char × List Char) :=
  matchExtInnerF cs.length cs

theorem isExtChar_rparen : isExtChar ')' = false := by decide

theorem isExtChar_dot : isExtChar '.' = false := by decide

/-- The fuel does not matter as long as it is at least the input's
length. -/
theorem matchExtInnerF_congr : ∀ (n m : Nat) (cs : List Char),
    cs.length ≤ n → cs.length ≤ m → matchExtInnerF n cs = matchExtInnerF m cs := by
  intro n
  induction n with
  | zero =>
    intro m cs hn hm
    have : cs = [] := List.length_eq_zero.mp (Nat.le_zero.mp hn)
    subst this
    cases m with
    | zero => rfl
    | succ m => simp [matchExtInnerF, takeWhileB]
  | succ n ih =>
    intro m cs hn hm
    cases m with
    | zero =>
      have : cs = [] := List.length_eq_zero.mp (Nat.le_zero.mp hm)
      subst this
      simp [matchExtInnerF, takeWhileB]
    | succ m =>
      rcases hsp2 : (takeWhileB isExtChar cs).2 with - | ⟨c, rest⟩
      · simp [matchExtInnerF, hsp2]
      · have hrest : rest.length ≤ n ∧ rest.length ≤ m := by
          have h2 : (takeWhileB isExtChar cs).2.length ≤ cs.length :=
            takeWhileB_snd_length isExtChar cs
          rw [hsp2] at h2
          simp at h2
          omega
        simp only [matchExtInnerF, hsp2]
        rw [ih m rest hrest.1 hrest.2]

/-- Soundness of the extension matcher: it splits the input into a
consumed part and the rest, and the consumed part is self-delimiting
(the matcher consumes exactly it when re-applied). -/
theorem matchExtInner_sound : ∀ (n : Nat) (cs consumed rem : List Char),
    cs.length ≤ n → matchExtInnerF n cs = some (consumed, rem) →
    cs = consumed ++ rem ∧ matchExtInner consumed = some (consumed, []) := by
  intro n
  induction n with
  | zero => intro cs consumed rem _ h; cases h
  | succ n ih =>
    intro cs consumed rem hlen h
    have hjoin := takeWhileB_join isExtChar cs
    have hall := takeWhileB_fst_all isExtChar cs
    by_cases h1 : (takeWhileB isExtChar cs).1 = []
    · simp [matchExtInnerF, h1] at h
    · rcases hsp2 : (takeWhileB isExtChar cs).2 with - | ⟨c, rest⟩
      · simp [matchExtInnerF, h1, hsp2] at h
      · by_cases hc : c = ')'
        · subst hc
          simp [matchExtInnerF, h1, hsp2] at h
          obtain ⟨hcon, hrem⟩ := h
          subst hcon
          subst hrem
          constructor
          · conv_lhs => rw [← hjoin, hsp2]
            simp
          · unfold matchExtInner
            have hlen2 : ((takeWhileB isExtChar cs).1 ++ [')']).length
                = (takeWhileB isExtChar cs).1.length + 1 := by simp
            rw [hlen2]
            simp only [matchExtInnerF]
            have hsplit : takeWhileB isExtChar
                ((takeWhileB isExtChar cs).1 ++ [')'])
                = ((takeWhileB isExtChar cs).1, [')']) := by
              refine takeWhileB_split _ _ _ hall ?_
              intro c' rest' he
              cases he
              exact isExtChar_rparen
            rw [hsplit]
            simp [h1]
        · by_cases hc2 : c = '.'
          · subst hc2
            rcases hrec : matchExtInnerF n rest with - | ⟨consumed2, rem2⟩
            · simp [matchExtInnerF, h1, hsp2, hrec] at h
            · simp [matchExtInnerF, h1, hsp2, hrec] at h
              obtain ⟨hcon, hrem⟩ := h
              subst hcon
              subst hrem
              have hrest : rest.length ≤ n := by
                have h2 : (takeWhileB isExtChar cs).2.length ≤ cs.length :=
                  takeWhileB_snd_length isExtChar cs
                rw [hsp2] at h2
                simp at h2
                omega
              obtain ⟨hj2, hself⟩ := ih rest consumed2 rem2 hrest hrec
              constructor
              · conv_lhs => rw [← hjoin, hsp2, hj2]
                simp
              · unfold matchExtInner
                have hlen2 : ((takeWhileB isExtChar cs).1 ++ '.' :: consumed2).length
                    = ((takeWhileB isExtChar cs).1.length + consumed2.length) + 1 := by
                  simp
                  omega
                rw [hlen2]
                simp only [matchExtInnerF]
                have hsplit : takeWhileB isExtChar
                    ((takeWhileB isExtChar cs).1 ++ '.' :: consumed2)
                    = ((takeWhileB isExtChar cs).1, '.' :: consumed2) := by
                  refine takeWhileB_split _ _ _ hall ?_
                  intro c' rest' he
                  cases he
                  exact isExtChar_dot
                rw [hsplit]
                have hfuel : matchExtInnerF
                    ((takeWhileB isExtChar cs).1.length + consumed2.length) consumed2
                    = matchExtInnerF consumed2.length consumed2 :=
                  matchExtInnerF_congr _ _ _ (by omega) (by omega)
                unfold matchExtInner at hself
                simp [h1, hfuel, hself]
          · simp [matchExtInnerF, h1, hsp2, hc, hc2] at h

/-- Completeness of the extension matcher: a self-delimiting consumed
part followed by anything is consumed exactly. -/
theorem matchExtInner_complete : ∀ (n : Nat) (st r : List Char),
    st.length ≤ n → matchExtInnerF n st = some (st, []) →
    ∀ m, (st ++ r).length ≤ m → matchExtInnerF m (st ++ r) = some (st, r) := by
  intro n
  induction n with
  | zero => intro st r _ h; cases h
  | succ n ih =>
    intro st r hlen h m hm
    have hjoin := takeWhileB_join isExtChar st
    have hall := takeWhileB_fst_all isExtChar st
    by_cases h1 : (takeWhileB isExtChar st).1 = []
    · simp [matchExtInnerF, h1] at h
    · rcases hsp2 : (takeWhileB isExtChar st).2 with - | ⟨c, rest⟩
      · simp [matchExtInnerF, h1, hsp2] at h
      · by_cases hc : c = ')'
        · subst hc
          simp [matchExtInnerF, h1, hsp2] at h
          obtain ⟨hst, hrest⟩ := h
          subst hrest
          obtain ⟨m', rfl⟩ : ∃ m', m = m' + 1 := by
            have hstne : st ≠ [] := by rw [← hst]; simp
            have h5 : 0 < st.length := List.length_pos.mpr hstne
            have h6 : (st ++ r).length = st.length + r.length := List.length_append st r
            exact ⟨m - 1, by omega⟩
          simp only [matchExtInnerF]
          have hsplit : takeWhileB isExtChar (st ++ r)
              = ((takeWhileB isExtChar st).1, ')' :: r) := by
            conv_lhs => rw [← hst]
            rw [List.append_assoc]
            refine takeWhileB_split _ _ _ hall ?_
            intro c' rest' he
            cases he
            exact isExtChar_rparen
          rw [hsplit]
          simp [h1, hst]
        · by_cases hc2 : c = '.'
          · subst hc2
            rcases hrec : matchExtInnerF n rest with - | ⟨consumed2, rem2⟩
            · simp [matchExtInnerF, h1, hsp2, hrec] at h
            · simp [matchExtInnerF, h1, hsp2, hrec] at h
              obtain ⟨hst, hrem2⟩ := h
              subst hrem2
              have hrc : rest = consumed2 := by
                have h3 : (takeWhileB isExtChar st).1 ++ '.' :: rest
                    = (takeWhileB isExtChar st).1 ++ '.' :: consumed2 := by
                  rw [← hsp2, hjoin, hst]
                have h4 := List.append_cancel_left h3
                exact (List.cons.inj h4).2
              subst hrc
              have hrest : rest.length ≤ n := by
                have h2 : (takeWhileB isExtChar st).2.length ≤ st.length :=
                  takeWhileB_snd_length isExtChar st
                rw [hsp2] at h2
                simp at h2
                omega
              obtain ⟨m', rfl⟩ : ∃ m', m = m' + 1 := by
                have hstne : st ≠ [] := by rw [← hst]; simp
                have h5 : 0 < st.length := List.length_pos.mpr hstne
                have h6 : (st ++ r).length = st.length + r.length := List.length_append st r
                exact ⟨m - 1, by omega⟩
              simp only [matchExtInnerF]
              have hsplit : takeWhileB isExtChar (st ++ r)
                  = ((takeWhileB isExtChar st).1, '.' :: (rest ++ r)) := by
                conv_lhs => rw [← hst]
                rw [List.append_assoc]
                refine takeWhileB_split _ _ _ hall ?_
                intro c' rest' he
                cases he
                exact isExtChar_dot
              rw [hsplit]
              have hne1 : 1 ≤ (takeWhileB isExtChar st).1.length := by
                rcases hx : (takeWhileB isExtChar st).1 with - | ⟨a, tl⟩
                · exact absurd hx h1
                · simp [hx]
              have hm' : (rest ++ r).length ≤ m' := by
                have hlm : (st ++ r).length ≤ m' + 1 := hm
                have hlst : st.length
                    = (takeWhileB isExtChar st).1.length + 1 + rest.length := by
                  conv_lhs => rw [← hst]
                  simp
                  omega
                simp only [List.length_append] at hlm ⊢
                omega
              simp [h1, hst, ih rest r hrest (by rw [hrec]) m' hm']
          · simp [matchExtInnerF, h1, hsp2, hc, hc2] at h

/-- Not the closing bracket (`[^]]` of the map-indexing regex). -/
def isNotRBracket (c : Char) : Bool := !(c == ']')

/-- One application of `(EXTENSION|SIMPLE|MAP)` at the head of the input:
the step regexes are distinguished by first character (`(` starts an
extension; otherwise the longest simple run is read, and a following `[`
commits to a map-indexing step), so the alternation is deterministic. -/
def matchGroup (cs : List Char) : Option (List Char × List Char) :=
  match cs with
  | [] => none
  | c :: rest =>
    if c = '(' then
      match matchExtInner rest with
      | some (consumed, rem) => some ('(' :: consumed, rem)
      | none => none
    else
      let sp := takeWhileB isSimpleChar (c :: rest)
      if sp.1 = [] then none
      else
        match sp.2 with
        | [] => some (sp.1, [])
        | c2 :: rest2 =>
          if c2 = '[' then
            let cp := takeWhileB isNotRBracket rest2
            match cp.2 with
            | [] => none
            | c3 :: rest3 =>
              if c3 = ']' then some (sp.1 ++ '[' :: cp.1 ++ [']'], rest3)
              else none
          else some (sp.1, c2 :: rest2)

/-- Full match of `_SIMPLE_STEP_REGEX`. -/
def isSimpleStepB (cs : List Char) : Bool := !cs.isEmpty && cs.all isSimpleChar

/-- Full match of `_EXTENSION_REGEX`: an opening parenthesis whose inner
part is consumed entirely by the extension matcher. -/
def isExtStepB (cs : List Char) : Bool :=
  match cs with
  | [] => false
  | c :: rest =>
    decide (c = '(') &&
    (match matchExtInner rest with
     | some (_, rem) => rem.isEmpty
     | none => false)

/-- Full match of `_MAP_INDEXING_STEP_REGEX`. -/
def isMapStepB (cs : List Char) : Bool :=
  let sp := takeWhileB isSimpleChar cs
  !sp.1.isEmpty &&
  (match sp.2 with
   | [] => false
   | c2 :: rest2 =>
     decide (c2 = '[') &&
     (let cp := takeWhileB isNotRBracket rest2
      match cp.2 with
      | [c3] => decide (c3 = ']')
      | _ => false))

/-- `is_valid_step` from `path.py`: a full match of the extension, simple
or map-indexing step regex. -/
def isValidStep (cs : List Char) : Bool :=
  isExtStepB cs || isSimpleStepB cs || isMapStepB cs

theorem isSimpleChar_lparen : isSimpleChar '(' = false := by decide
theorem isSimpleChar_dot : isSimpleChar '.' = false := by decide
theorem isSimpleChar_lbracket : isSimpleChar '[' = false := by decide
theorem isNotRBracket_rbracket : isNotRBracket ']' = false := by decide

/-- Soundness of the step matcher: it consumes exactly a valid step. -/
theorem matchGroup_sound (cs st rem : List Char)
    (h : matchGroup cs = some (st, rem)) :
    cs = st ++ rem ∧ isValidStep st = true ∧ st ≠ [] := by
  match cs with
  | [] => cases h
  | c :: rest =>
    by_cases hc : c = '('
    · subst hc
      rcases hrec : matchExtInner rest with - | ⟨consumed, rem2⟩
      · simp [matchGroup, hrec] at h
      · simp [matchGroup, hrec] at h
        obtain ⟨hst, hrem⟩ := h
        subst st
        subst rem
        obtain ⟨hjoin, hself⟩ :=
          matchExtInner_sound rest.length rest consumed rem2 le_rfl hrec
        refine ⟨?_, ?_, ?_⟩
        · rw [hjoin]
          rfl
        · simp [isValidStep, isExtStepB, hself]
        · simp
    · have hjoin := takeWhileB_join isSimpleChar (c :: rest)
      have hall := takeWhileB_fst_all isSimpleChar (c :: rest)
      by_cases h1 : (takeWhileB isSimpleChar (c :: rest)).1 = []
      · simp [matchGroup, hc, h1] at h
      · rcases hsp2 : (takeWhileB isSimpleChar (c :: rest)).2 with - | ⟨c2, rest2⟩
        · simp [matchGroup, hc, h1, hsp2] at h
          obtain ⟨hst, hrem⟩ := h
          subst st
          subst rem
          refine ⟨?_, ?_, ?_⟩
          · conv_lhs => rw [← hjoin, hsp2]
          · have hs : isSimpleStepB (takeWhileB isSimpleChar (c :: rest)).1 = true := by
              simp only [isSimpleStepB, Bool.and_eq_true, List.all_eq_true]
              exact ⟨by simp [h1], fun x hx => hall x hx⟩
            simp [isValidStep, hs]
          · exact h1
        · by_cases hc2 : c2 = '['
          · subst hc2
            have hcall := takeWhileB_fst_all isNotRBracket rest2
            have hcjoin := takeWhileB_join isNotRBracket rest2
            rcases hcp2 : (takeWhileB isNotRBracket rest2).2 with - | ⟨c3, rest3⟩
            · simp [matchGroup, hc, h1, hsp2, hcp2] at h
            · by_cases hc3 : c3 = ']'
              · subst hc3
                simp [matchGroup, hc, h1, hsp2, hcp2] at h
                obtain ⟨hst, hrem⟩ := h
                subst st
                subst rem
                have hshape : rest2
                    = (takeWhileB isNotRBracket rest2).1 ++ ']' :: rest3 := by
                  conv_lhs => rw [← hcjoin, hcp2]
                have hmsplit : takeWhileB isSimpleChar
                    ((takeWhileB isSimpleChar (c :: rest)).1
                      ++ ('[' :: ((takeWhileB isNotRBracket rest2).1 ++ [']'])))
                    = ((takeWhileB isSimpleChar (c :: rest)).1,
                        '[' :: ((takeWhileB isNotRBracket rest2).1 ++ [']'])) := by
                  refine takeWhileB_split _ _ _ hall ?_
                  intro c' rest' he
                  cases he
                  exact isSimpleChar_lbracket
                have hcsplit : takeWhileB isNotRBracket
                    ((takeWhileB isNotRBracket rest2).1 ++ [']'])
                    = ((takeWhileB isNotRBracket rest2).1, [']']) := by
                  refine takeWhileB_split _ _ _ hcall ?_
                  intro c' rest' he
                  cases he
                  exact isNotRBracket_rbracket
                refine ⟨?_, ?_, ?_⟩
                · conv_lhs => rw [← hjoin, hsp2, hshape]
                  simp
                · simp [isValidStep, isMapStepB, hmsplit, hcsplit, h1]
                · simp
              · simp [matchGroup, hc, h1, hsp2, hcp2, hc3] at h
          · simp [matchGroup, hc, h1, hsp2, hc2] at h
            obtain ⟨hst, hrem⟩ := h
            subst st
            subst rem
            refine ⟨?_, ?_, ?_⟩
            · conv_lhs => rw [← hjoin, hsp2]
            · have hs : isSimpleStepB (takeWhileB isSimpleChar (c :: rest)).1 = true := by
                simp only [isSimpleStepB, Bool.and_eq_true, List.all_eq_true]
                exact ⟨by simp [h1], fun x hx => hall x hx⟩
              simp [isValidStep, hs]
            · exact h1

/-- Completeness of the step matcher: a valid step followed by a
separator (or the end of the input) is consumed exactly. -/
theorem matchGroup_complete (st r : List Char) (hv : isValidStep st = true)
    (hr : r = [] ∨ ∃ r2, r = '.' :: r2) :
    matchGroup (st ++ r) = some (st, r) := by
  cases hext : isExtStepB st with
  | true =>
    -- extension step
    match st, hext with
    | c :: inner, hext =>
      rcases hrec : matchExtInner inner with - | ⟨consumed, rem2⟩
      · simp [isExtStepB, hrec] at hext
      · simp [isExtStepB, hrec] at hext
        obtain ⟨hc, hrem2⟩ := hext
        subst hc
        subst hrem2
        obtain ⟨hjoin, -⟩ :=
          matchExtInner_sound inner.length inner consumed [] le_rfl hrec
        rw [List.append_nil] at hjoin
        rw [← hjoin] at hrec
        have hcomp := matchExtInner_complete inner.length inner r le_rfl
          (show matchExtInnerF inner.length inner = some (inner, []) from hrec)
          (inner.length + r.length) (by simp)
        have hcons2 : ('(' :: inner) ++ r = '(' :: (inner ++ r) := rfl
        rw [hcons2]
        simp [matchGroup, matchExtInner, hcomp]
  | false =>
    cases hsimple : isSimpleStepB st with
    | true =>
      -- simple step
      simp only [isSimpleStepB, Bool.and_eq_true, List.all_eq_true] at hsimple
      obtain ⟨hne, hall⟩ := hsimple
      have hne2 : st ≠ [] := by
        intro he
        rw [he] at hne
        simp at hne
      match st, hne2, hall with
      | a :: tl, _, hall =>
        have ha : isSimpleChar a = true := hall a (List.mem_cons_self a tl)
        have hap : ¬ a = '(' := by
          intro he
          rw [he] at ha
          rw [isSimpleChar_lparen] at ha
          cases ha
        have hsplit : takeWhileB isSimpleChar ((a :: tl) ++ r)
            = (a :: tl, r) := by
          refine takeWhileB_split _ _ _ hall ?_
          intro c2 rest2 he
          rcases hr with hr | ⟨r2, hr⟩
          · rw [hr] at he; cases he
          · rw [hr] at he
            cases he
            exact isSimpleChar_dot
        have hcons : (a :: tl) ++ r = a :: (tl ++ r) := rfl
        rw [hcons] at hsplit ⊢
        rcases hr with hr | ⟨r2, hr⟩
        · subst hr
          simp only [List.append_nil] at hsplit ⊢
          simp [matchGroup, hap, hsplit]
        · subst hr
          simp [matchGroup, hap, hsplit]
    | false =>
      cases hmap : isMapStepB st with
      | false =>
        exfalso
        simp [isValidStep, hext, hsimple, hmap] at hv
      | true =>
        -- map-indexing step
        have hjoin := takeWhileB_join isSimpleChar st
        have hall := takeWhileB_fst_all isSimpleChar st
        rcases hsp2 : (takeWhileB isSimpleChar st).2 with - | ⟨c2, rest2⟩
        · simp [isMapStepB, hsp2] at hmap
        · have hcall := takeWhileB_fst_all isNotRBracket rest2
          have hcjoin := takeWhileB_join isNotRBracket rest2
          rcases hcp2 : (takeWhileB isNotRBracket rest2).2 with - | ⟨c3, rest3⟩
          · simp [isMapStepB, hsp2, hcp2] at hmap
          · cases rest3 with
            | cons c4 rest4 => simp [isMapStepB, hsp2, hcp2] at hmap
            | nil =>
              simp [isMapStepB, hsp2, hcp2] at hmap
              obtain ⟨h1, hc2, hc3⟩ := hmap
              subst hc2
              subst hc3
              have h1b : (takeWhileB isSimpleChar st).1 ≠ [] := by
                intro he
                rw [he] at h1
                simp at h1
              have hshape2 : rest2 = (takeWhileB isNotRBracket rest2).1 ++ [']'] := by
                conv_lhs => rw [← hcjoin, hcp2]
              have hshape : st = (takeWhileB isSimpleChar st).1
                  ++ ('[' :: ((takeWhileB isNotRBracket rest2).1 ++ [']'])) := by
                conv_lhs => rw [← hjoin, hsp2, hshape2]
              obtain ⟨a, tl, hst⟩ : ∃ a tl, (takeWhileB isSimpleChar st).1 = a :: tl := by
                rcases hx : (takeWhileB isSimpleChar st).1 with - | ⟨a, tl⟩
                · exact absurd hx h1b
                · exact ⟨a, tl, rfl⟩
              have ha : isSimpleChar a = true := by
                refine hall a ?_
                rw [hst]
                exact List.mem_cons_self a tl
              have hap : ¬ a = '(' := by
                intro he
                rw [he] at ha
                rw [isSimpleChar_lparen] at ha
                cases ha
              have hsplitS : takeWhileB isSimpleChar (st ++ r)
                  = ((takeWhileB isSimpleChar st).1,
                      '[' :: ((takeWhileB isNotRBracket rest2).1 ++ (']' :: r))) := by
                conv_lhs => rw [hshape]
                have hlist : ((takeWhileB isSimpleChar st).1
                      ++ ('[' :: ((takeWhileB isNotRBracket rest2).1 ++ [']']))) ++ r
                    = (takeWhileB isSimpleChar st).1
                      ++ ('[' :: ((takeWhileB isNotRBracket rest2).1 ++ (']' :: r))) := by
                  simp
                rw [hlist]
                refine takeWhileB_split _ _ _ hall ?_
                intro c5 rest5 he
                cases he
                exact isSimpleChar_lbracket
              have hsplitC : takeWhileB isNotRBracket
                  ((takeWhileB isNotRBracket rest2).1 ++ (']' :: r))
                  = ((takeWhileB isNotRBracket rest2).1, ']' :: r) := by
                refine takeWhileB_split _ _ _ hcall ?_
                intro c5 rest5 he
                cases he
                exact isNotRBracket_rbracket
              have hcons : st ++ r
                  = a :: ((tl ++ ('[' :: ((takeWhileB isNotRBracket rest2).1 ++ [']']))) ++ r) := by
                conv_lhs => rw [hshape, hst]
                simp
              rw [hcons] at hsplitS ⊢
              simp only [List.append_assoc, List.cons_append,
                List.singleton_append, List.nil_append] at hsplitS
              rw [show (some (st, r) : Option (List Char × List Char))
                  = some ((takeWhileB isSimpleChar st).1
                      ++ ('[' :: ((takeWhileB isNotRBracket rest2).1 ++ [']'])), r) from by
                rw [← hshape]]
              simp [matchGroup, hap, hsplitS, hsplitC, h1b]

/-- The parse loop of `create_path`: repeatedly match
`(EXTENSION|SIMPLE|MAP)(\.|$)` and collect the steps; fail when no step
matches at the current position.  `fuel` bounds the recursion as in
`matchExtInnerF`. -/
def parseStepsF : Nat → List Char → Option (List (List Char))
  | 0, [] => some []
  | 0, _ :: _ => none
  | _ + 1, [] => some []
  | fuel + 1, c :: rest =>
    match matchGroup (c :: rest) with
    | none => none
    | some (st, rem) =>
      match rem with
      | [] => some [st]
      | r1 :: rest2 =>
        if r1 = '.' then
          match parseStepsF fuel rest2 with
          | some steps => some (st :: steps)
          | none => none
        else none

/-- The parse loop at its canonical fuel. -/
def parseSteps (cs : List Char) : Option (List (List Char)) :=
  parseStepsF cs.length cs

/-- `create_path` from `path.py` (on a string source): reject a text
ending with the separator, then run the parse loop. -/
def createPath (cs : List Char) : Option (List (List Char)) :=
  if cs.getLast? = some '.' then none
  else parseSteps cs

/-- The textual form a parsed step list came from: the steps joined by
the `.` separator. -/
def joinDot : List (List Char) → List Char
  | [] => []
  | [st] => st
  | st :: rest => st ++ '.' :: joinDot rest

theorem isValidStep_ne_nil {st : List Char} (h : isValidStep st = true) :
    st ≠ [] := by
  intro he
  subst he
  simp [isValidStep, isExtStepB, isSimpleStepB, isMapStepB, takeWhileB] at h

/-- What the extension matcher consumes always ends with `)`. -/
theorem matchExtInner_getLast : ∀ (n : Nat) (cs consumed rem : List Char),
    matchExtInnerF n cs = some (consumed, rem) →
    consumed.getLast? = some ')' := by
  intro n
  induction n with
  | zero => intro cs consumed rem h; cases h
  | succ n ih =>
    intro cs consumed rem h
    by_cases h1 : (takeWhileB isExtChar cs).1 = []
    · simp [matchExtInnerF, h1] at h
    · rcases hsp2 : (takeWhileB isExtChar cs).2 with - | ⟨c, rest⟩
      · simp [matchExtInnerF, h1, hsp2] at h
      · by_cases hc : c = ')'
        · subst hc
          simp [matchExtInnerF, h1, hsp2] at h
          obtain ⟨hcon, -⟩ := h
          rw [← hcon]
          rw [List.getLast?_append_cons]
          rfl
        · by_cases hc2 : c = '.'
          · subst hc2
            rcases hrec : matchExtInnerF n rest with - | ⟨consumed2, rem2⟩
            · simp [matchExtInnerF, h1, hsp2, hrec] at h
            · simp [matchExtInnerF, h1, hsp2, hrec] at h
              obtain ⟨hcon, -⟩ := h
              rw [← hcon]
              rw [List.getLast?_append_cons]
              have hlast2 := ih rest consumed2 rem2 hrec
              have hne2 : consumed2 ≠ [] := by
                intro he
                rw [he] at hlast2
                cases hlast2
              have : '.' :: consumed2 = ['.'] ++ consumed2 := rfl
              rw [this, List.getLast?_append_of_ne_nil ['.'] hne2]
              exact hlast2
          · simp [matchExtInnerF, h1, hsp2, hc, hc2] at h

/-- A valid step never ends with the separator. -/
theorem isValidStep_getLast_ne_dot {st : List Char} (h : isValidStep st = true) :
    st.getLast? ≠ some '.' := by
  cases hext : isExtStepB st with
  | true =>
    match st, hext with
    | c :: inner, hext =>
      rcases hrec : matchExtInner inner with - | ⟨consumed, rem2⟩
      · simp [isExtStepB, hrec] at hext
      · simp [isExtStepB, hrec] at hext
        obtain ⟨hc, hrem2⟩ := hext
        subst hc
        subst hrem2
        obtain ⟨hjoin, -⟩ :=
          matchExtInner_sound inner.length inner consumed [] le_rfl hrec
        rw [List.append_nil] at hjoin
        have hlast := matchExtInner_getLast inner.length inner consumed [] hrec
        rw [← hjoin] at hlast
        have hne : inner ≠ [] := by
          intro he
          rw [he] at hlast
          cases hlast
        have hcons : '(' :: inner = ['('] ++ inner := rfl
        rw [hcons, List.getLast?_append_of_ne_nil ['('] hne, hlast]
        intro he
        cases he
  | false =>
    cases hsimple : isSimpleStepB st with
    | true =>
      simp only [isSimpleStepB, Bool.and_eq_true, List.all_eq_true] at hsimple
      obtain ⟨-, hall⟩ := hsimple
      intro he
      have hmem : '.' ∈ st := List.mem_of_mem_getLast? (by rw [he]; rfl)
      have := hall '.' hmem
      rw [isSimpleChar_dot] at this
      cases this
    | false =>
      cases hmap : isMapStepB st with
      | false => simp [isValidStep, hext, hsimple, hmap] at h
      | true =>
        have hjoin := takeWhileB_join isSimpleChar st
        rcases hsp2 : (takeWhileB isSimpleChar st).2 with - | ⟨c2, rest2⟩
        · simp [isMapStepB, hsp2] at hmap
        · have hcjoin := takeWhileB_join isNotRBracket rest2
          rcases hcp2 : (takeWhileB isNotRBracket rest2).2 with - | ⟨c3, rest3⟩
          · simp [isMapStepB, hsp2, hcp2] at hmap
          · cases rest3 with
            | cons c4 rest4 => simp [isMapStepB, hsp2, hcp2] at hmap
            | nil =>
              simp [isMapStepB, hsp2, hcp2] at hmap
              obtain ⟨-, hc2, hc3⟩ := hmap
              subst hc2
              subst hc3
              have hshape2 : rest2 = (takeWhileB isNotRBracket rest2).1 ++ [']'] := by
                conv_lhs => rw [← hcjoin, hcp2]
              have hshape : st = (takeWhileB isSimpleChar st).1
                  ++ ('[' :: ((takeWhileB isNotRBracket rest2).1 ++ [']'])) := by
                conv_lhs => rw [← hjoin, hsp2, hshape2]
              rw [hshape, List.getLast?_append_cons]
              have hb : '[' :: ((takeWhileB isNotRBracket rest2).1 ++ [']'])
                  = ['['] ++ ((takeWhileB isNotRBracket rest2).1 ++ [']']) := rfl
              rw [hb, List.getLast?_append_of_ne_nil ['['] (by simp),
                List.getLast?_append_cons]
              decide

/-- The dot-join of valid steps is nonempty when the list is. -/
theorem joinDot_cons_ne_nil {st : List Char} {rest : List (List Char)}
    (hst : st ≠ []) : joinDot (st :: rest) ≠ [] := by
  cases rest with
  | nil => exact hst
  | cons st2 rest2 =>
    show st ++ '.' :: joinDot (st2 :: rest2) ≠ []
    simp

/-- The dot-join of valid steps never ends with the separator. -/
theorem joinDot_getLast_ne_dot : ∀ (steps : List (List Char)),
    (∀ st ∈ steps, isValidStep st = true) →
    (joinDot steps).getLast? ≠ some '.' := by
  intro steps
  induction steps with
  | nil => intro _ he; cases he
  | cons st rest ih =>
    intro hval
    have hst := hval st (List.mem_cons_self st rest)
    cases rest with
    | nil => exact isValidStep_getLast_ne_dot hst
    | cons st2 rest2 =>
      have hih := ih (fun x hx => hval x (List.mem_cons_of_mem st hx))
      show (st ++ '.' :: joinDot (st2 :: rest2)).getLast? ≠ some '.'
      rw [List.getLast?_append_cons]
      have hne : joinDot (st2 :: rest2) ≠ [] :=
        joinDot_cons_ne_nil
          (isValidStep_ne_nil (hval st2 (by simp)))
      have hcons : '.' :: joinDot (st2 :: rest2) = ['.'] ++ joinDot (st2 :: rest2) := rfl
      rw [hcons, List.getLast?_append_of_ne_nil ['.'] hne]
      exact hih

/-- Soundness of the parse loop: a successful parse yields valid steps
whose dot-join is the input (possibly up to one trailing separator,
which `create_path` rules out up front). -/
theorem parseStepsF_sound : ∀ (n : Nat) (cs : List Char)
    (steps : List (List Char)), cs.length ≤ n →
    parseStepsF n cs = some steps →
    (∀ st ∈ steps, isValidStep st = true)
    ∧ (cs = joinDot steps ∨ (steps ≠ [] ∧ cs = joinDot steps ++ ['.'])) := by
  intro n
  induction n with
  | zero =>
    intro cs steps hlen h
    have : cs = [] := List.length_eq_zero.mp (Nat.le_zero.mp hlen)
    subst this
    cases h
    exact ⟨by simp, Or.inl rfl⟩
  | succ n ih =>
    intro cs steps hlen h
    cases cs with
    | nil =>
      cases h
      exact ⟨by simp, Or.inl rfl⟩
    | cons c rest =>
      rcases hmg : matchGroup (c :: rest) with - | ⟨st, rem⟩
      · simp [parseStepsF, hmg] at h
      · obtain ⟨hjoin, hval, hne⟩ := matchGroup_sound (c :: rest) st rem hmg
        cases rem with
        | nil =>
          simp [parseStepsF, hmg] at h
          subst h
          refine ⟨by simpa using hval, Or.inl ?_⟩
          rw [hjoin, List.append_nil]
          rfl
        | cons r1 rest2 =>
          by_cases hr1 : r1 = '.'
          · subst hr1
            rcases hrec : parseStepsF n rest2 with - | steps2
            · simp [parseStepsF, hmg, hrec] at h
            · simp [parseStepsF, hmg, hrec] at h
              subst h
              have hlen2 : rest2.length ≤ n := by
                have h9 := congrArg List.length hjoin
                simp at h9 hlen
                omega
              obtain ⟨hval2, hj2⟩ := ih rest2 steps2 hlen2 hrec
              refine ⟨?_, ?_⟩
              · intro x hx
                rcases List.mem_cons.mp hx with hx | hx
                · rw [hx]; exact hval
                · exact hval2 x hx
              · rcases hj2 with hj2 | ⟨hne2, hj2⟩
                · cases steps2 with
                  | nil =>
                    right
                    refine ⟨by simp, ?_⟩
                    rw [hjoin, hj2]
                    rfl
                  | cons st2 rest3 =>
                    left
                    rw [hjoin, hj2]
                    rfl
                · cases steps2 with
                  | nil => cases hne2 rfl
                  | cons st2 rest3 =>
                    right
                    refine ⟨by simp, ?_⟩
                    rw [hjoin, hj2]
                    show st ++ '.' :: (joinDot (st2 :: rest3) ++ ['.'])
                      = (st ++ '.' :: joinDot (st2 :: rest3)) ++ ['.']
                    simp
          · simp [parseStepsF, hmg, hr1] at h

/-- Completeness of the parse loop: the dot-join of valid steps parses
back to exactly those steps. -/
theorem parseStepsF_complete : ∀ (steps : List (List Char)),
    (∀ st ∈ steps, isValidStep st = true) →
    ∀ n, (joinDot steps).length ≤ n →
    parseStepsF n (joinDot steps) = some steps := by
  intro steps
  induction steps with
  | nil =>
    intro _ n _
    cases n with
    | zero => rfl
    | succ n => rfl
  | cons st rest ih =>
    intro hval n hlen
    have hst := hval st (List.mem_cons_self st rest)
    have hstne := isValidStep_ne_nil hst
    cases rest with
    | nil =>
      have hj : joinDot [st] = st := rfl
      rw [hj] at hlen ⊢
      obtain ⟨a, tl, hcons⟩ : ∃ a tl, st = a :: tl := by
        rcases hx : st with - | ⟨a, tl⟩
        · exact absurd hx hstne
        · exact ⟨a, tl, rfl⟩
      obtain ⟨n', rfl⟩ : ∃ n', n = n' + 1 := by
        rw [hcons] at hlen
        simp at hlen
        exact ⟨n - 1, by omega⟩
      have hmg : matchGroup st = some (st, []) := by
        have := matchGroup_complete st [] hst (Or.inl rfl)
        rwa [List.append_nil] at this
      rw [hcons] at hmg ⊢
      simp [parseStepsF, hmg]
    | cons st2 rest2 =>
      have hj : joinDot (st :: st2 :: rest2)
          = st ++ '.' :: joinDot (st2 :: rest2) := rfl
      rw [hj] at hlen ⊢
      obtain ⟨a, tl, hcons⟩ : ∃ a tl, st = a :: tl := by
        rcases hx : st with - | ⟨a, tl⟩
        · exact absurd hx hstne
        · exact ⟨a, tl, rfl⟩
      obtain ⟨n', rfl⟩ : ∃ n', n = n' + 1 := by
        rw [hcons] at hlen
        simp at hlen
        exact ⟨n - 1, by omega⟩
      have hmg : matchGroup (st ++ '.' :: joinDot (st2 :: rest2))
          = some (st, '.' :: joinDot (st2 :: rest2)) :=
        matchGroup_complete st ('.' :: joinDot (st2 :: rest2)) hst
          (Or.inr ⟨joinDot (st2 :: rest2), rfl⟩)
      have hlen2 : (joinDot (st2 :: rest2)).length ≤ n' := by
        rw [hcons] at hlen
        simp at hlen
        omega
      have hrec := ih (fun x hx => hval x (List.mem_cons_of_mem st hx)) n' hlen2
      have hcons2 : st ++ '.' :: joinDot (st2 :: rest2)
          = a :: (tl ++ '.' :: joinDot (st2 :: rest2)) := by
        rw [hcons]
        rfl
      rw [hcons2] at hmg ⊢
      simp [parseStepsF, hmg, hrec]

/-- C9: parsing a path literal succeeds exactly when the text is the
dot-join of a sequence of valid steps — equivalently, it fails exactly
when the text ends with the separator or no valid step matches at some
position — and on success the result is that sequence of matched steps;
a text ending with the separator is rejected up front. -/
theorem create_path_spec (cs : List Char) (steps : List (List Char)) :
    (createPath cs = some steps
      ↔ ((∀ st ∈ steps, isValidStep st = true) ∧ cs = joinDot steps))
    ∧ (cs.getLast? = some '.' → createPath cs = none) := by
  constructor
  · constructor
    · intro h
      unfold createPath at h
      by_cases hdot : cs.getLast? = some '.'
      · rw [if_pos hdot] at h; cases h
      · rw [if_neg hdot] at h
        obtain ⟨hval, hjoin⟩ := parseStepsF_sound cs.length cs steps le_rfl h
        rcases hjoin with hj | ⟨hne, hj⟩
        · exact ⟨hval, hj⟩
        · exfalso
          refine hdot ?_
          rw [hj]
          have : joinDot steps ++ ['.'] = joinDot steps ++ '.' :: [] := rfl
          rw [this, List.getLast?_append_cons]
          rfl
    · rintro ⟨hval, hj⟩
      subst hj
      unfold createPath
      rw [if_neg (joinDot_getLast_ne_dot steps hval)]
      exact parseStepsF_complete steps hval (joinDot steps).length le_rfl
  · intro hdot
    unfold createPath
    rw [if_pos hdot]

/-- Witness for C9: `"ab.m[x]"` parses into a simple step and a
map-indexing step, and `"ab."` is rejected. -/
theorem create_path_spec_witness :
    createPath ['a', 'b', '.', 'm', '[', 'x', ']']
      = some [['a', 'b'], ['m', '[', 'x', ']']]
    ∧ createPath ['a', 'b', '.'] = none := by
  constructor
  · exact (create_path_spec ['a', 'b', '.', 'm', '[', 'x', ']']
      [['a', 'b'], ['m', '[', 'x', ']']]).1.mpr ⟨by decide, by decide⟩
  · exact (create_path_spec ['a', 'b', '.'] []).2 (by decide)

/-! ## Promote's structural preconditions (`_promote_impl`,
`PromoteExpression.__init__`, `promote.py`)

`_promote_impl` first rejects paths of length < 2, then computes
`grandparent_path.get_child(new_field_name)` — where `Path.get_child`
rejects a string name failing `is_valid_step` — then resolves the
origin and its parent (`get_descendant_or_error`), and
`PromoteExpression.__init__` rejects a non-leaf origin ("Can only promote
a field") and a leaf parent ("origin_parent cannot be a field").  This
section sits after the parsing section because the new-name check reuses
`isValidStep`. -/

end Struct2Tensor
